import Mathlib

/-!
# Verification of the GRACE kgx-ui overlay engine

A shallow embedding, in Lean 4, of the retrieval-to-graph overlay engine of
the GRACE repository and the layout/viewport logic that consumes it:

* `src/kgx-ui/src/overlay.ts` — `normalize`, the identity index (`nameMap`),
  `buildOverlay`, and `edgeKey`;
* `src/kgx-ui/src/App.tsx` — the merged-overlay effect that unions per-message
  overlays over the chat history;
* `src/kgx-ui/src/components/GraphCanvas.tsx` — the level-band force target
  (`yFor`, with `minLevel`/`maxLevel`) and the zoom-signature / reset-zoom
  effects.

JavaScript strings are modelled as Lean `String` (lists of unicode scalar
characters); `String.prototype.toUpperCase` is modelled at the basic-latin
fragment via `Char.toUpper` (all inputs appearing in the claims are ASCII);
JS `Set` objects are modelled as insertion-ordered duplicate-free lists; JS
`Map` objects as insertion-ordered association lists.  A JS `TypeError`
(iterating an `undefined` field) is modelled by `Except.error`.
-/

namespace KGX

/-! ## The normalizer (overlay.ts lines 3-5)

`const normalize = (s) => s.replace(/^"+|"+$/g, '').trim().toUpperCase()`

The regex `/^"+|"+$/g` removes the maximal run of `"` characters at the start
of the string and the maximal run at the end; `trim()` removes leading and
trailing JS whitespace; `toUpperCase()` upper-cases. -/

/-- The quote character test used by the regex `/^"+|"+$/g`. -/
def isQuote (c : Char) : Bool := c = '"'

/-- JS `String.prototype.trim` whitespace (WhiteSpace ∪ LineTerminator),
identified by code point. -/
def isJsSpace (c : Char) : Bool :=
  let n := c.toNat
  n = 0x20 || n = 0x09 || n = 0x0A || n = 0x0B || n = 0x0C || n = 0x0D ||
  n = 0xA0 || n = 0x1680 || (0x2000 ≤ n && n ≤ 0x200A) ||
  n = 0x2028 || n = 0x2029 || n = 0x202F || n = 0x205F || n = 0x3000 || n = 0xFEFF

/-- Drop the given character class from both ends of a character list
(used for both the quote-stripping regex and `trim()`). -/
def dropEnds (p : Char → Bool) (l : List Char) : List Char :=
  ((l.dropWhile p).reverse.dropWhile p).reverse

/-- `s.replace(/^"+|"+$/g, '')` on the character list. -/
def stripQuotesL (l : List Char) : List Char := dropEnds isQuote l

/-- `s.trim()` on the character list. -/
def trimL (l : List Char) : List Char := dropEnds isJsSpace l

/-- `normalize` on the character list: strip boundary quotes, then trim,
then upper-case. -/
def normalizeL (l : List Char) : List Char := (trimL (stripQuotesL l)).map Char.toUpper

/-- overlay.ts `normalize`: strip leading/trailing quote runs, trim
whitespace, upper-case. -/
def normalize (s : String) : String := ⟨normalizeL s.data⟩

example : normalize "\"Foo\" " = "FOO\"" := by decide
example : normalize "FOO" = "FOO" := by decide
example : normalize " \"Foo\"" = "\"FOO" := by decide
example : normalize "\"Foo\"" = "FOO" := by decide

/-! ### Character-level facts about `Char.toUpper` (the basic-latin model of
`String.prototype.toUpperCase`) -/

theorem char_toNat_ofNat_valid {n : Nat} (h : n < 0xd800) : (Char.ofNat n).toNat = n := by
  have hv : n.isValidChar := Or.inl h
  rw [Char.ofNat, dif_pos hv]
  rfl

theorem toUpper_toNat_of_lower {c : Char} (h1 : 97 ≤ c.toNat) (h2 : c.toNat ≤ 122) :
    (Char.toUpper c).toNat = c.toNat - 32 := by
  unfold Char.toUpper
  rw [if_pos ⟨h1, h2⟩]
  exact char_toNat_ofNat_valid (by omega)

theorem toUpper_eq_self_of_not_lower {c : Char} (h : ¬(97 ≤ c.toNat ∧ c.toNat ≤ 122)) :
    Char.toUpper c = c := by
  unfold Char.toUpper
  rw [if_neg h]

theorem toUpper_idem (c : Char) : Char.toUpper (Char.toUpper c) = Char.toUpper c := by
  by_cases h : 97 ≤ c.toNat ∧ c.toNat ≤ 122
  · have h1 := toUpper_toNat_of_lower h.1 h.2
    exact toUpper_eq_self_of_not_lower (by omega)
  · rw [toUpper_eq_self_of_not_lower h]
    exact toUpper_eq_self_of_not_lower h

theorem toUpper_ne_quote {c : Char} (h : c ≠ '"') : Char.toUpper c ≠ '"' := by
  by_cases hl : 97 ≤ c.toNat ∧ c.toNat ≤ 122
  · intro he
    have h1 := toUpper_toNat_of_lower hl.1 hl.2
    rw [he] at h1
    have h34 : ('"').toNat = 34 := rfl
    omega
  · rw [toUpper_eq_self_of_not_lower hl]
    exact h

theorem isJsSpace_eq_false_of_upper {c : Char} (h1 : 65 ≤ c.toNat) (h2 : c.toNat ≤ 90) :
    isJsSpace c = false := by
  simp only [isJsSpace, Bool.or_eq_false_iff, Bool.and_eq_false_iff,
    decide_eq_false_iff_not]
  omega

theorem isJsSpace_toUpper {c : Char} (h : isJsSpace c = false) :
    isJsSpace (Char.toUpper c) = false := by
  by_cases hl : 97 ≤ c.toNat ∧ c.toNat ≤ 122
  · have h1 := toUpper_toNat_of_lower hl.1 hl.2
    exact isJsSpace_eq_false_of_upper (by omega) (by omega)
  · rwa [toUpper_eq_self_of_not_lower hl]

/-! ### Facts about `dropWhile` and `dropEnds` -/

theorem dropWhile_head_false {p : Char → Bool} {l : List Char} {c : Char}
    (h : (l.dropWhile p).head? = some c) : p c = false := by
  have hd := List.head?_dropWhile_not p l
  rw [h] at hd
  exact hd

theorem dropWhile_eq_self_of_head {p : Char → Bool} {l : List Char}
    (h : ∀ c, l.head? = some c → p c = false) : l.dropWhile p = l := by
  cases l with
  | nil => rfl
  | cons a l => simp [List.dropWhile_cons, h a rfl]

theorem dropWhile_idem (p : Char → Bool) (l : List Char) :
    (l.dropWhile p).dropWhile p = l.dropWhile p :=
  dropWhile_eq_self_of_head (fun _ hc => dropWhile_head_false hc)

theorem mem_of_mem_dropWhile {p : Char → Bool} {l : List Char} {c : Char}
    (h : c ∈ l.dropWhile p) : c ∈ l := by
  obtain ⟨u, hu⟩ := List.dropWhile_suffix (l := l) p
  rw [← hu]
  exact List.mem_append_right u h

theorem getLast?_dropWhile {p : Char → Bool} {l : List Char} {c : Char}
    (h : (l.dropWhile p).getLast? = some c) : l.getLast? = some c := by
  obtain ⟨u, hu⟩ := List.dropWhile_suffix (l := l) p
  rw [← hu, List.getLast?_append, h]
  rfl

theorem dropEnds_head_false {p : Char → Bool} {l : List Char} {c : Char}
    (h : (dropEnds p l).head? = some c) : p c = false := by
  rw [dropEnds, List.head?_reverse] at h
  have h2 : ((l.dropWhile p).reverse).getLast? = some c := getLast?_dropWhile h
  rw [List.getLast?_reverse] at h2
  exact dropWhile_head_false h2

theorem dropEnds_getLast_false {p : Char → Bool} {l : List Char} {c : Char}
    (h : (dropEnds p l).getLast? = some c) : p c = false := by
  rw [dropEnds, List.getLast?_reverse] at h
  exact dropWhile_head_false h

theorem mem_of_mem_dropEnds {p : Char → Bool} {l : List Char} {c : Char}
    (h : c ∈ dropEnds p l) : c ∈ l := by
  rw [dropEnds, List.mem_reverse] at h
  have h2 := mem_of_mem_dropWhile h
  rw [List.mem_reverse] at h2
  exact mem_of_mem_dropWhile h2

theorem dropEnds_eq_self {p : Char → Bool} {l : List Char}
    (hh : ∀ c, l.head? = some c → p c = false)
    (hl : ∀ c, l.getLast? = some c → p c = false) :
    dropEnds p l = l := by
  have h1 : l.dropWhile p = l := dropWhile_eq_self_of_head hh
  rw [dropEnds, h1]
  have h2 : l.reverse.dropWhile p = l.reverse := by
    apply dropWhile_eq_self_of_head
    intro c hc
    rw [List.head?_reverse] at hc
    exact hl c hc
  rw [h2, List.reverse_reverse]

/-! ### Idempotence of `normalize` on quote-free inputs -/

theorem stripQuotesL_eq_self {l : List Char} (h : ∀ c ∈ l, isQuote c = false) :
    stripQuotesL l = l :=
  dropEnds_eq_self
    (fun c hc => h c (List.mem_of_mem_head? hc))
    (fun c hc => h c (List.mem_of_mem_head? (l := l.reverse) (by rwa [List.head?_reverse]) |> (List.mem_reverse.mp)))

theorem mem_of_mem_normalizeL {l : List Char} {c : Char} (h : c ∈ normalizeL l) :
    ∃ d ∈ l, c = Char.toUpper d := by
  rw [normalizeL, List.mem_map] at h
  obtain ⟨d, hd, rfl⟩ := h
  exact ⟨d, mem_of_mem_dropEnds (mem_of_mem_dropEnds hd), rfl⟩

theorem normalizeL_no_quote {l : List Char} (h : ∀ c ∈ l, isQuote c = false) :
    ∀ c ∈ normalizeL l, isQuote c = false := by
  intro c hc
  obtain ⟨d, hd, rfl⟩ := mem_of_mem_normalizeL hc
  have hq : d ≠ '"' := by
    have := h d hd
    simpa [isQuote] using this
  simpa [isQuote] using toUpper_ne_quote hq

theorem normalizeL_head_no_space {l : List Char} {c : Char}
    (h : (normalizeL l).head? = some c) : isJsSpace c = false := by
  rw [normalizeL, List.head?_map] at h
  cases hh : (trimL (stripQuotesL l)).head? with
  | none => rw [hh] at h; exact absurd h (by simp)
  | some d =>
    rw [hh] at h
    have hcd : Char.toUpper d = c := by simpa using h
    rw [← hcd]
    exact isJsSpace_toUpper (dropEnds_head_false hh)

theorem normalizeL_getLast_no_space {l : List Char} {c : Char}
    (h : (normalizeL l).getLast? = some c) : isJsSpace c = false := by
  rw [normalizeL, List.getLast?_map] at h
  cases hh : (trimL (stripQuotesL l)).getLast? with
  | none => rw [hh] at h; exact absurd h (by simp)
  | some d =>
    rw [hh] at h
    have hcd : Char.toUpper d = c := by simpa using h
    rw [← hcd]
    exact isJsSpace_toUpper (dropEnds_getLast_false hh)

theorem normalizeL_idem_of_no_quote {l : List Char} (h : ∀ c ∈ l, isQuote c = false) :
    normalizeL (normalizeL l) = normalizeL l := by
  have hq : stripQuotesL (normalizeL l) = normalizeL l :=
    stripQuotesL_eq_self (normalizeL_no_quote h)
  have ht : trimL (normalizeL l) = normalizeL l :=
    dropEnds_eq_self (fun _ hc => normalizeL_head_no_space hc)
      (fun _ hc => normalizeL_getLast_no_space hc)
  conv_lhs => rw [normalizeL, hq, ht]
  rw [normalizeL, List.map_map]
  exact List.map_congr_left (fun a _ => toUpper_idem a)

/-- C1 — counterexample.  The claim asserts `normalize` is idempotent and that
`normalize('"Foo" ') == normalize('FOO')`.  Both parts fail on the source: the
regex `/^"+|"+$/g` runs before `trim()`, so for the input `"Foo" ` (trailing
space after the closing quote) the closing quote survives quote stripping,
producing `FOO"`; re-normalizing then strips that quote, yielding `FOO`. -/
theorem c1_counterexample :
    normalize (normalize "\"Foo\" ") ≠ normalize "\"Foo\" " ∧
    normalize "\"Foo\" " ≠ normalize "FOO" := by decide

/-- C1 (amended): `normalize` is idempotent on inputs containing no quote
character, and the case/quote-insensitivity instance holds for properly
wrapping quotes: `normalize('"Foo"') == normalize('FOO')`.  On the original
input `'"Foo" '` the result is `FOO"`, which differs from `normalize('FOO')`. -/
theorem c1_normalize_idem_quote_free :
    (∀ s : String, (∀ c ∈ s.data, c ≠ '"') → normalize (normalize s) = normalize s) ∧
    normalize "\"Foo\"" = normalize "FOO" ∧
    normalize "\"Foo\" " = "FOO\"" := by
  refine ⟨fun s h => ?_, by decide, by decide⟩
  show String.mk (normalizeL (normalize s).data) = String.mk (normalizeL s.data)
  have hq : ∀ c ∈ s.data, isQuote c = false := by
    intro c hc
    simpa [isQuote] using h c hc
  exact congrArg String.mk (normalizeL_idem_of_no_quote hq)

/-- C1 — witness for the amended theorem at the concrete quote-free input
`"Foo "`. -/
theorem c1_witness : normalize (normalize "Foo ") = normalize "Foo " :=
  c1_normalize_idem_quote_free.1 "Foo " (by decide)

/-! ## Data model (src/kgx-ui/src/types.ts)

Only the fields read by the embedded functions are modelled.  A JS field that
may be `undefined` at the call sites under study is modelled as `Option`; a
missing/empty string attribute is modelled as `""` (both are falsy under the
`if (!key) continue` guard). -/

/-- A graph node (`NodeRec`); the overlay/layout logic reads `id`, `label`,
`description` and `level`. -/
structure NodeRec where
  id : String
  label : String
  description : String
  level : Int
deriving DecidableEq, Repr

/-- One `node_hits.node_datas` entry; only `entity_name` is read. -/
structure NodeData where
  entity_name : String
deriving DecidableEq, Repr

/-- One `node_hits.use_reasoning_path` entry; only `src_tgt` is read. -/
structure PathEntry where
  src_tgt : String × String
deriving DecidableEq, Repr

/-- The `node_hits` record of a retrieval payload.  The two list fields are
`Option` so that an absent (`undefined`) field can be distinguished from an
empty one, as the claims require. -/
structure NodeHits where
  node_datas : Option (List NodeData)
  use_reasoning_path : Option (List PathEntry)
deriving DecidableEq, Repr

/-- A retrieval payload (`RetrieveResponse`); only `node_hits` is read by the
overlay builder. -/
structure RetrieveResponse where
  node_hits : NodeHits
deriving DecidableEq, Repr

/-- The overlay (`Overlay` in overlay.ts): three JS `Set`s, modelled as
insertion-ordered duplicate-free lists. -/
structure Overlay where
  hitNodeIds : List String
  pathNodeIds : List String
  pathEdgeKeys : List String
deriving DecidableEq, Repr

/-- JS `Set.prototype.add`: append iff not already present. -/
def setAdd (s : List String) (x : String) : List String :=
  if x ∈ s then s else s ++ [x]

/-- `for (const id of xs) s.add(id)`. -/
def setAddAll (s : List String) (xs : List String) : List String :=
  xs.foldl setAdd s

/-! ## The identity index (overlay.ts lines 15-25)

`const nameMap = new Map<string, string[]>()`, filled by iterating every node
and each of its `id`, `label`, `description` attributes. -/

/-- A JS `Map<string, string[]>` as an insertion-ordered association list. -/
abbrev NameMap := List (String × List String)

/-- `Map.prototype.get`. -/
def mapGet : NameMap → String → Option (List String)
  | [], _ => none
  | (k', v) :: m, k => if k' = k then some v else mapGet m k

/-- `Map.prototype.set`: overwrite the existing key in place, else append. -/
def mapSet : NameMap → String → List String → NameMap
  | [], k, v => [(k, v)]
  | (k', v') :: m, k, v => if k' = k then (k, v) :: m else (k', v') :: mapSet m k v

/-- `nameMap.get(k) || []` — the lookup used by the overlay loops. -/
def lookupIds (m : NameMap) (k : String) : List String :=
  (mapGet m k).getD []

/-- The body of the inner loop over `[n.id, n.label, n.description]`:
`if (!key) continue; const k = normalize(key); const arr = nameMap.get(k) || [];
arr.push(n.id); nameMap.set(k, arr)`. -/
def insAttr (m : NameMap) (nodeId : String) (key : String) : NameMap :=
  if key = "" then m
  else
    let k := normalize key
    mapSet m k ((mapGet m k).getD [] ++ [nodeId])

/-- One iteration of the outer loop: insert all three attributes of a node. -/
def insNode (m : NameMap) (n : NodeRec) : NameMap :=
  insAttr (insAttr (insAttr m n.id n.id) n.id n.label) n.id n.description

/-- The outer loop `for (const n of nodes)`. -/
def buildNameMapAux (m : NameMap) : List NodeRec → NameMap
  | [] => m
  | n :: ns => buildNameMapAux (insNode m n) ns

/-- The identity index built by `buildOverlay` from the node list. -/
def buildNameMap (nodes : List NodeRec) : NameMap :=
  buildNameMapAux [] nodes

/-! ## The overlay builder (overlay.ts lines 14-45) -/

/-- The loop `for (const nd of res.node_hits.node_datas) { const k =
normalize(nd.entity_name); for (const id of nameMap.get(k) || [])
hitNodeIds.add(id) }`. -/
def hitsLoop (m : NameMap) : List NodeData → List String → List String
  | [], acc => acc
  | nd :: nds, acc =>
      hitsLoop m nds (setAddAll acc (lookupIds m (normalize nd.entity_name)))

/-- The loop over `reasoning`, accumulating `pathNodeIds` and `pathEdgeKeys`:
both orderings of the key built from the two normalized strings are added,
independent of index resolution. -/
def pathLoop (m : NameMap) : List PathEntry → List String → List String →
    List String × List String
  | [], pn, pe => (pn, pe)
  | p :: ps, pn, pe =>
      let sNorm := normalize p.src_tgt.1
      let tNorm := normalize p.src_tgt.2
      let pn' := setAddAll (setAddAll pn (lookupIds m sNorm)) (lookupIds m tNorm)
      let pe' := setAdd (setAdd pe (sNorm ++ "||" ++ tNorm)) (tNorm ++ "||" ++ sNorm)
      pathLoop m ps pn' pe'

/-- overlay.ts `buildOverlay`.  Iterating `res.node_hits.node_datas` when the
field is `undefined` throws a JS `TypeError`, modelled as `Except.error`;
`use_reasoning_path` is guarded by `?? []`. -/
def buildOverlay (res : RetrieveResponse) (nodes : List NodeRec) :
    Except String Overlay :=
  let nameMap := buildNameMap nodes
  match res.node_hits.node_datas with
  | none => .error "TypeError: res.node_hits.node_datas is not iterable"
  | some nds =>
      let hitNodeIds := hitsLoop nameMap nds []
      let reasoning := res.node_hits.use_reasoning_path.getD []
      let pnpe := pathLoop nameMap reasoning [] []
      .ok ⟨hitNodeIds, pnpe.1, pnpe.2⟩

/-! ## `edgeKey` (overlay.ts lines 48-51)

`const g = (x) => (typeof x === 'string' ? normalize(x) : normalize(x?.id ?? ''))` -/

/-- An edge endpoint as the renderer produces it: either a plain string id or
a node object whose `id` field may be absent (`obj none` also models a
nullish endpoint, for which `x?.id` is `undefined`). -/
inductive Endpoint where
  | str (s : String)
  | obj (id : Option String)
deriving DecidableEq, Repr

/-- The helper `g` inside `edgeKey`. -/
def endpointKeyPart : Endpoint → String
  | .str s => normalize s
  | .obj id => normalize (id.getD "")

/-- An edge value as passed to `edgeKey` by the renderer. -/
structure EdgeVal where
  source : Endpoint
  target : Endpoint
deriving DecidableEq, Repr

/-- overlay.ts `edgeKey`. -/
def edgeKey (e : EdgeVal) : String :=
  endpointKeyPart e.source ++ "||" ++ endpointKeyPart e.target

/-! Scenario sanity checks (spec §8): nodes `n1`/`Egg`/level 0 and
`n2`/`Boil`/level 1, retrieval `entity_name: "EGG"`,
`src_tgt: ["Egg","Boil"]`. -/

/-- The node list of the spec §8 scenario. -/
def sampleNodes : List NodeRec :=
  [⟨"n1", "Egg", "", 0⟩, ⟨"n2", "Boil", "", 1⟩]

/-- The retrieval payload of the spec §8 scenario. -/
def sampleRes : RetrieveResponse :=
  ⟨⟨some [⟨"EGG"⟩], some [⟨("Egg", "Boil")⟩]⟩⟩

example :
    buildOverlay sampleRes sampleNodes =
      .ok ⟨["n1"], ["n1", "n2"], ["EGG||BOIL", "BOIL||EGG"]⟩ := by rfl

/-! ## Membership characterizations of the set/map operations -/

theorem mem_setAdd {s : List String} {x y : String} :
    y ∈ setAdd s x ↔ y ∈ s ∨ y = x := by
  by_cases hx : x ∈ s
  · rw [setAdd, if_pos hx]
    constructor
    · exact Or.inl
    · rintro (h | rfl)
      · exact h
      · exact hx
  · rw [setAdd, if_neg hx]
    simp [List.mem_append]

theorem mem_setAddAll {s xs : List String} {y : String} :
    y ∈ setAddAll s xs ↔ y ∈ s ∨ y ∈ xs := by
  induction xs generalizing s with
  | nil => simp [setAddAll]
  | cons x xs ih =>
    show y ∈ setAddAll (setAdd s x) xs ↔ _
    rw [ih, mem_setAdd, List.mem_cons]
    tauto

theorem mapGet_mapSet (m : NameMap) (k k' : String) (v : List String) :
    mapGet (mapSet m k v) k' = if k = k' then some v else mapGet m k' := by
  induction m with
  | nil => simp [mapSet, mapGet]
  | cons p m ih =>
    obtain ⟨pk, pv⟩ := p
    by_cases h1 : pk = k
    · subst h1
      rw [mapSet, if_pos rfl]
      by_cases h2 : pk = k'
      · subst h2
        simp [mapGet]
      · rw [mapGet, if_neg h2, if_neg h2, mapGet, if_neg h2]
    · rw [mapSet, if_neg h1]
      by_cases h2 : pk = k'
      · subst h2
        have hkk : ¬ k = pk := fun h => h1 h.symm
        rw [mapGet, if_pos rfl, if_neg hkk, mapGet, if_pos rfl]
      · rw [mapGet, if_neg h2, ih, mapGet, if_neg h2]

theorem mem_lookupIds_insAttr {m : NameMap} {nodeId key k x : String} :
    x ∈ lookupIds (insAttr m nodeId key) k ↔
      x ∈ lookupIds m k ∨ (key ≠ "" ∧ normalize key = k ∧ x = nodeId) := by
  by_cases hk : key = ""
  · rw [insAttr, if_pos hk]
    simp [hk]
  · rw [insAttr, if_neg hk]
    show x ∈ lookupIds (mapSet m (normalize key) _) k ↔ _
    rw [lookupIds, mapGet_mapSet]
    by_cases hn : normalize key = k
    · rw [if_pos hn, ← hn]
      simp [lookupIds, hk, List.mem_append]
    · rw [if_neg hn]
      simp [lookupIds, hn, hk]

/-- The three attributes the index is built from, in source order. -/
def nodeAttrs (n : NodeRec) : List String := [n.id, n.label, n.description]

theorem mem_lookupIds_insNode {m : NameMap} {n : NodeRec} {k x : String} :
    x ∈ lookupIds (insNode m n) k ↔
      x ∈ lookupIds m k ∨
        (x = n.id ∧ ∃ attr ∈ nodeAttrs n, attr ≠ "" ∧ normalize attr = k) := by
  rw [insNode, mem_lookupIds_insAttr, mem_lookupIds_insAttr, mem_lookupIds_insAttr]
  simp only [nodeAttrs, List.mem_cons, List.mem_singleton, List.not_mem_nil]
  constructor
  · rintro (((h | ⟨h1, h2, h3⟩) | ⟨h1, h2, h3⟩) | ⟨h1, h2, h3⟩)
    · exact Or.inl h
    · exact Or.inr ⟨h3, n.id, Or.inl rfl, h1, h2⟩
    · exact Or.inr ⟨h3, n.label, Or.inr (Or.inl rfl), h1, h2⟩
    · exact Or.inr ⟨h3, n.description, Or.inr (Or.inr (Or.inl rfl)), h1, h2⟩
  · rintro (h | ⟨hx, attr, (rfl | rfl | rfl | hfalse), h1, h2⟩)
    · exact Or.inl (Or.inl (Or.inl h))
    · exact Or.inl (Or.inl (Or.inr ⟨h1, h2, hx⟩))
    · exact Or.inl (Or.inr ⟨h1, h2, hx⟩)
    · exact Or.inr ⟨h1, h2, hx⟩
    · cases hfalse

theorem mem_lookupIds_buildNameMapAux {m : NameMap} {ns : List NodeRec}
    {k x : String} :
    x ∈ lookupIds (buildNameMapAux m ns) k ↔
      x ∈ lookupIds m k ∨
        ∃ n ∈ ns, x = n.id ∧ ∃ attr ∈ nodeAttrs n, attr ≠ "" ∧ normalize attr = k := by
  induction ns generalizing m with
  | nil => simp [buildNameMapAux]
  | cons n ns ih =>
    show x ∈ lookupIds (buildNameMapAux (insNode m n) ns) k ↔ _
    rw [ih, mem_lookupIds_insNode, List.exists_mem_cons_iff, or_assoc]

theorem mem_lookupIds_buildNameMap {nodes : List NodeRec} {k x : String} :
    x ∈ lookupIds (buildNameMap nodes) k ↔
      ∃ n ∈ nodes, x = n.id ∧ ∃ attr ∈ nodeAttrs n, attr ≠ "" ∧ normalize attr = k := by
  rw [buildNameMap, mem_lookupIds_buildNameMapAux]
  simp [lookupIds, mapGet]

/-! ## Membership characterizations of the overlay loops -/

theorem mem_hitsLoop {m : NameMap} {nds : List NodeData} {acc : List String}
    {x : String} :
    x ∈ hitsLoop m nds acc ↔
      x ∈ acc ∨ ∃ nd ∈ nds, x ∈ lookupIds m (normalize nd.entity_name) := by
  induction nds generalizing acc with
  | nil => simp [hitsLoop]
  | cons nd nds ih =>
    show x ∈ hitsLoop m nds (setAddAll acc _) ↔ _
    rw [ih, mem_setAddAll, List.exists_mem_cons_iff, or_assoc]

theorem pathLoop_cons (m : NameMap) (p : PathEntry) (ps : List PathEntry)
    (pn pe : List String) :
    pathLoop m (p :: ps) pn pe =
      pathLoop m ps
        (setAddAll (setAddAll pn (lookupIds m (normalize p.src_tgt.1)))
          (lookupIds m (normalize p.src_tgt.2)))
        (setAdd (setAdd pe (normalize p.src_tgt.1 ++ "||" ++ normalize p.src_tgt.2))
          (normalize p.src_tgt.2 ++ "||" ++ normalize p.src_tgt.1)) := rfl

theorem mem_pathLoop_fst {m : NameMap} {ps : List PathEntry}
    {pn pe : List String} {x : String} :
    x ∈ (pathLoop m ps pn pe).1 ↔
      x ∈ pn ∨ ∃ p ∈ ps,
        x ∈ lookupIds m (normalize p.src_tgt.1) ∨
        x ∈ lookupIds m (normalize p.src_tgt.2) := by
  induction ps generalizing pn pe with
  | nil => simp [pathLoop]
  | cons p ps ih =>
    rw [pathLoop_cons, ih, mem_setAddAll, mem_setAddAll, List.exists_mem_cons_iff]
    generalize (∃ q ∈ ps,
      x ∈ lookupIds m (normalize q.src_tgt.1) ∨
      x ∈ lookupIds m (normalize q.src_tgt.2)) = E
    tauto

theorem mem_pathLoop_snd {m : NameMap} {ps : List PathEntry}
    {pn pe : List String} {k : String} :
    k ∈ (pathLoop m ps pn pe).2 ↔
      k ∈ pe ∨ ∃ p ∈ ps,
        k = normalize p.src_tgt.1 ++ "||" ++ normalize p.src_tgt.2 ∨
        k = normalize p.src_tgt.2 ++ "||" ++ normalize p.src_tgt.1 := by
  induction ps generalizing pn pe with
  | nil => simp [pathLoop]
  | cons p ps ih =>
    rw [pathLoop_cons, ih, mem_setAdd, mem_setAdd, List.exists_mem_cons_iff]
    generalize (∃ q ∈ ps,
      k = normalize q.src_tgt.1 ++ "||" ++ normalize q.src_tgt.2 ∨
      k = normalize q.src_tgt.2 ++ "||" ++ normalize q.src_tgt.1) = E
    tauto

/-! ## Destructuring a successful `buildOverlay` -/

theorem buildOverlay_eq {res : RetrieveResponse} {nodes : List NodeRec}
    {nds : List NodeData} (h : res.node_hits.node_datas = some nds) :
    buildOverlay res nodes =
      .ok ⟨hitsLoop (buildNameMap nodes) nds [],
           (pathLoop (buildNameMap nodes)
             (res.node_hits.use_reasoning_path.getD []) [] []).1,
           (pathLoop (buildNameMap nodes)
             (res.node_hits.use_reasoning_path.getD []) [] []).2⟩ := by
  simp only [buildOverlay, h]

theorem buildOverlay_ok_elim {res : RetrieveResponse} {nodes : List NodeRec}
    {ov : Overlay} (h : buildOverlay res nodes = .ok ov) :
    ∃ nds, res.node_hits.node_datas = some nds ∧
      ov.hitNodeIds = hitsLoop (buildNameMap nodes) nds [] ∧
      ov.pathNodeIds = (pathLoop (buildNameMap nodes)
        (res.node_hits.use_reasoning_path.getD []) [] []).1 ∧
      ov.pathEdgeKeys = (pathLoop (buildNameMap nodes)
        (res.node_hits.use_reasoning_path.getD []) [] []).2 := by
  cases hnd : res.node_hits.node_datas with
  | none =>
    rw [buildOverlay] at h
    rw [hnd] at h
    cases h
  | some nds =>
    rw [buildOverlay_eq hnd] at h
    have hov := Except.ok.inj h
    exact ⟨nds, rfl, by rw [← hov], by rw [← hov], by rw [← hov]⟩

/-! ## Claims about the overlay builder -/

/-- C3 — counterexample.  With `node_datas` absent (`undefined`),
`buildOverlay` iterates `undefined` and throws a `TypeError` instead of
treating the field as an empty sequence (`use_reasoning_path` has a `?? []`
guard, `node_datas` does not). -/
theorem c3_counterexample :
    buildOverlay ⟨⟨none, none⟩⟩ [] =
      .error "TypeError: res.node_hits.node_datas is not iterable" := rfl

/-- C3 (amended): with `node_datas` present and empty, an absent or empty
`use_reasoning_path` is treated as an empty sequence and `buildOverlay`
returns three empty sets without error; an absent `node_datas`, however,
raises a `TypeError` (the empty default for that field is supplied upstream
by the API client's payload normalization, not by `buildOverlay`). -/
theorem c3_empty_node_hits (nodes : List NodeRec) (ro : Option (List PathEntry))
    (h : ro = none ∨ ro = some []) :
    buildOverlay ⟨⟨some [], ro⟩⟩ nodes = .ok ⟨[], [], []⟩ := by
  rcases h with rfl | rfl <;> rfl

/-- C3 — witness for the amended theorem. -/
theorem c3_witness :
    buildOverlay ⟨⟨some [], none⟩⟩ [] = .ok ⟨[], [], []⟩ :=
  c3_empty_node_hits [] none (Or.inl rfl)

/-- C5: `hitNodeIds` is exactly the union, over the `node_datas` entries, of
the identity-index lookups of the normalized `entity_name` (a name with no
index hit contributes nothing); the spec §8 scenario produces
`hitNodeIds={n1}`, `pathNodeIds={n1,n2}`,
`pathEdgeKeys={"EGG||BOIL","BOIL||EGG"}`; and a name matching two distinct
nodes through a shared label contributes both ids. -/
theorem c5_hitNodeIds_exact :
    (∀ (res : RetrieveResponse) (nodes : List NodeRec) (nds : List NodeData)
        (ov : Overlay) (x : String),
        res.node_hits.node_datas = some nds →
        buildOverlay res nodes = .ok ov →
        (x ∈ ov.hitNodeIds ↔
          ∃ nd ∈ nds, x ∈ lookupIds (buildNameMap nodes) (normalize nd.entity_name))) ∧
    buildOverlay sampleRes sampleNodes =
      .ok ⟨["n1"], ["n1", "n2"], ["EGG||BOIL", "BOIL||EGG"]⟩ ∧
    buildOverlay ⟨⟨some [⟨"EGG"⟩], none⟩⟩
        [⟨"n1", "Egg", "", 0⟩, ⟨"n3", "Egg", "", 0⟩] =
      .ok ⟨["n1", "n3"], [], []⟩ := by
  refine ⟨?_, rfl, rfl⟩
  intro res nodes nds ov x hnd hok
  obtain ⟨nds', hnd', hhit, _, _⟩ := buildOverlay_ok_elim hok
  rw [hnd] at hnd'
  cases Option.some.inj hnd'
  rw [hhit, mem_hitsLoop]
  simp

/-- C5 — witness applying the exactness characterization at the spec §8
scenario. -/
theorem c5_witness :
    "n1" ∈ (Overlay.mk ["n1"] ["n1", "n2"] ["EGG||BOIL", "BOIL||EGG"]).hitNodeIds ↔
      ∃ nd ∈ [NodeData.mk "EGG"],
        "n1" ∈ lookupIds (buildNameMap sampleNodes) (normalize nd.entity_name) :=
  c5_hitNodeIds_exact.1 sampleRes sampleNodes [⟨"EGG"⟩]
    ⟨["n1"], ["n1", "n2"], ["EGG||BOIL", "BOIL||EGG"]⟩ "n1" rfl rfl

/-- C6: for every reasoning-path entry, both orderings of the key built from
the two normalized strings are inserted into `pathEdgeKeys` (independent of
index resolution), and consequently every key in the returned set has its
mirror present in the same set. -/
theorem c6_pathEdgeKeys_symmetric :
    ∀ (res : RetrieveResponse) (nodes : List NodeRec) (ov : Overlay),
      buildOverlay res nodes = .ok ov →
      (∀ p ∈ res.node_hits.use_reasoning_path.getD [],
        normalize p.src_tgt.1 ++ "||" ++ normalize p.src_tgt.2 ∈ ov.pathEdgeKeys ∧
        normalize p.src_tgt.2 ++ "||" ++ normalize p.src_tgt.1 ∈ ov.pathEdgeKeys) ∧
      (∀ k ∈ ov.pathEdgeKeys, ∃ s t : String,
        k = s ++ "||" ++ t ∧ t ++ "||" ++ s ∈ ov.pathEdgeKeys) := by
  intro res nodes ov hok
  obtain ⟨nds, hnd, _, _, hpe⟩ := buildOverlay_ok_elim hok
  constructor
  · intro p hp
    constructor
    · rw [hpe, mem_pathLoop_snd]
      exact Or.inr ⟨p, hp, Or.inl rfl⟩
    · rw [hpe, mem_pathLoop_snd]
      exact Or.inr ⟨p, hp, Or.inr rfl⟩
  · intro k hk
    rw [hpe, mem_pathLoop_snd] at hk
    rcases hk with h | ⟨p, hp, h | h⟩
    · exact absurd h (List.not_mem_nil k)
    · refine ⟨normalize p.src_tgt.1, normalize p.src_tgt.2, h, ?_⟩
      rw [hpe, mem_pathLoop_snd]
      exact Or.inr ⟨p, hp, Or.inr rfl⟩
    · refine ⟨normalize p.src_tgt.2, normalize p.src_tgt.1, h, ?_⟩
      rw [hpe, mem_pathLoop_snd]
      exact Or.inr ⟨p, hp, Or.inl rfl⟩

/-- C6 — witness: both orderings of the scenario's reasoning pair are present
in the built overlay's edge-key set. -/
theorem c6_witness :
    normalize "Egg" ++ "||" ++ normalize "Boil" ∈
      (Overlay.mk ["n1"] ["n1", "n2"] ["EGG||BOIL", "BOIL||EGG"]).pathEdgeKeys ∧
    normalize "Boil" ++ "||" ++ normalize "Egg" ∈
      (Overlay.mk ["n1"] ["n1", "n2"] ["EGG||BOIL", "BOIL||EGG"]).pathEdgeKeys :=
  (c6_pathEdgeKeys_symmetric sampleRes sampleNodes
      ⟨["n1"], ["n1", "n2"], ["EGG||BOIL", "BOIL||EGG"]⟩ rfl).1
    ⟨("Egg", "Boil")⟩ (by decide)

/-- C7 — counterexample.  The `if (!key) continue` guard tests the RAW
attribute, not its normalization: a label consisting of a single quote
character is truthy, normalizes to the empty canonical string, and IS
inserted under the empty key — and a retrieval name that also normalizes to
empty then matches the node through that entry. -/
theorem c7_counterexample :
    lookupIds (buildNameMap [⟨"x", "\"", "", 0⟩]) "" = ["x"] ∧
    buildOverlay ⟨⟨some [⟨"\""⟩], none⟩⟩ [⟨"x", "\"", "", 0⟩] =
      .ok ⟨["x"], [], []⟩ := ⟨rfl, rfl⟩

/-- C7 (amended): attributes that are literally empty are never inserted into
the index; consequently any entry under the empty canonical key can only come
from a NON-empty attribute (quotes/whitespace-only text) that normalizes to
the empty string. -/
theorem c7_empty_attrs_never_inserted :
    ∀ (nodes : List NodeRec) (x : String),
      x ∈ lookupIds (buildNameMap nodes) "" →
      ∃ n ∈ nodes, x = n.id ∧
        ∃ attr ∈ nodeAttrs n, attr ≠ "" ∧ normalize attr = "" := by
  intro nodes x h
  exact mem_lookupIds_buildNameMap.mp h

/-- C7 — witness for the amended theorem at the quote-label node. -/
theorem c7_witness :
    ∃ n ∈ [NodeRec.mk "x" "\"" "" 0], "x" = n.id ∧
      ∃ attr ∈ nodeAttrs n, attr ≠ "" ∧ normalize attr = "" :=
  c7_empty_attrs_never_inserted [⟨"x", "\"", "", 0⟩] "x" (by decide)

/-- C9: the `hitNodeIds` and `pathNodeIds` sets only ever contain ids of
nodes present in the given node list — unmatched retrieval names are dropped,
never inserted as placeholders. -/
theorem c9_overlay_ids_exist :
    ∀ (res : RetrieveResponse) (nodes : List NodeRec) (ov : Overlay),
      buildOverlay res nodes = .ok ov →
      (∀ x ∈ ov.hitNodeIds, ∃ n ∈ nodes, x = n.id) ∧
      (∀ x ∈ ov.pathNodeIds, ∃ n ∈ nodes, x = n.id) := by
  intro res nodes ov hok
  obtain ⟨nds, hnd, hhit, hpn, _⟩ := buildOverlay_ok_elim hok
  constructor
  · intro x hx
    rw [hhit, mem_hitsLoop] at hx
    rcases hx with h | ⟨nd, _, h⟩
    · exact absurd h (List.not_mem_nil x)
    · obtain ⟨n, hn, hxid, _⟩ := mem_lookupIds_buildNameMap.mp h
      exact ⟨n, hn, hxid⟩
  · intro x hx
    rw [hpn, mem_pathLoop_fst] at hx
    rcases hx with h | ⟨p, _, h | h⟩
    · exact absurd h (List.not_mem_nil x)
    · obtain ⟨n, hn, hxid, _⟩ := mem_lookupIds_buildNameMap.mp h
      exact ⟨n, hn, hxid⟩
    · obtain ⟨n, hn, hxid, _⟩ := mem_lookupIds_buildNameMap.mp h
      exact ⟨n, hn, hxid⟩

/-- C9 — witness at the spec §8 scenario. -/
theorem c9_witness : ∃ n ∈ sampleNodes, "n1" = n.id :=
  (c9_overlay_ids_exist sampleRes sampleNodes
      ⟨["n1"], ["n1", "n2"], ["EGG||BOIL", "BOIL||EGG"]⟩ rfl).1 "n1" (by decide)

/-- C10: `edgeKey` is total over both endpoint shapes by construction (so it
never throws): string endpoints yield the normalized string, object endpoints
yield the normalized `id` with an absent id treated as the empty string; and
the render-side key of a string-endpoint edge coincides with a key inserted
by `buildOverlay` for a reasoning pair with the same normalized endpoint
texts in either order. -/
theorem c10_edgeKey_total_coincides :
    (∀ a b : String, edgeKey ⟨.str a, .str b⟩ = normalize a ++ "||" ++ normalize b) ∧
    (∀ (oid : Option String) (t : Endpoint),
      edgeKey ⟨.obj oid, t⟩ = normalize (oid.getD "") ++ "||" ++ endpointKeyPart t) ∧
    (∀ (res : RetrieveResponse) (nodes : List NodeRec) (ov : Overlay)
        (p : PathEntry) (a b : String),
      buildOverlay res nodes = .ok ov →
      p ∈ res.node_hits.use_reasoning_path.getD [] →
      ((normalize a = normalize p.src_tgt.1 ∧ normalize b = normalize p.src_tgt.2) ∨
       (normalize a = normalize p.src_tgt.2 ∧ normalize b = normalize p.src_tgt.1)) →
      edgeKey ⟨.str a, .str b⟩ ∈ ov.pathEdgeKeys) := by
  refine ⟨fun a b => rfl, fun oid t => rfl, ?_⟩
  intro res nodes ov p a b hok hp hab
  obtain ⟨nds, hnd, _, _, hpe⟩ := buildOverlay_ok_elim hok
  rw [hpe, mem_pathLoop_snd]
  rcases hab with ⟨h1, h2⟩ | ⟨h1, h2⟩
  · refine Or.inr ⟨p, hp, Or.inl ?_⟩
    show normalize a ++ "||" ++ normalize b = _
    rw [h1, h2]
  · refine Or.inr ⟨p, hp, Or.inr ?_⟩
    show normalize a ++ "||" ++ normalize b = _
    rw [h1, h2]

/-- C10 — witness: the render key for the string-endpoint edge
`("EGG", "Boil")` is found in the scenario overlay's edge-key set. -/
theorem c10_witness :
    edgeKey ⟨.str "EGG", .str "Boil"⟩ ∈
      (Overlay.mk ["n1"] ["n1", "n2"] ["EGG||BOIL", "BOIL||EGG"]).pathEdgeKeys :=
  c10_edgeKey_total_coincides.2.2 sampleRes sampleNodes
    ⟨["n1"], ["n1", "n2"], ["EGG||BOIL", "BOIL||EGG"]⟩
    ⟨("Egg", "Boil")⟩ "EGG" "Boil" rfl (by decide) (Or.inl ⟨by decide, rfl⟩)

/-! ## The merged-overlay effect (src/kgx-ui/src/App.tsx lines 76-90) -/

/-- A chat message as read by the merged-overlay effect: only the optional
retrieval payload matters (`if (!msg.retrieval ...) continue`). -/
structure ChatMessage where
  retrieval : Option RetrieveResponse
deriving DecidableEq, Repr

/-- The effect's starting accumulator (three fresh `Set`s). -/
def emptyOverlay : Overlay := ⟨[], [], []⟩

/-- The `for (const msg of chatHistory)` loop: skip messages without a
retrieval payload, union each `buildOverlay` result into the accumulator.  A
thrown `TypeError` aborts the whole effect. -/
def mergeHistoryAux (nodes : List NodeRec) : List ChatMessage → Overlay →
    Except String Overlay
  | [], acc => .ok acc
  | msg :: rest, acc =>
      match msg.retrieval with
      | none => mergeHistoryAux nodes rest acc
      | some r =>
          match buildOverlay r nodes with
          | .error e => .error e
          | .ok ov =>
              mergeHistoryAux nodes rest
                ⟨setAddAll acc.hitNodeIds ov.hitNodeIds,
                 setAddAll acc.pathNodeIds ov.pathNodeIds,
                 setAddAll acc.pathEdgeKeys ov.pathEdgeKeys⟩

/-- The merged overlay (`setMergedOverlay(...)`) computed from the chat
history. -/
def mergeHistory (history : List ChatMessage) (nodes : List NodeRec) :
    Except String Overlay :=
  mergeHistoryAux nodes history emptyOverlay

theorem mergeHistoryAux_ok_mem {nodes : List NodeRec} {history : List ChatMessage}
    {acc ov : Overlay} (h : mergeHistoryAux nodes history acc = .ok ov)
    (x : String) :
    (x ∈ ov.hitNodeIds ↔ x ∈ acc.hitNodeIds ∨ ∃ msg ∈ history, ∃ r,
        msg.retrieval = some r ∧ ∃ mo, buildOverlay r nodes = .ok mo ∧
          x ∈ mo.hitNodeIds) ∧
    (x ∈ ov.pathNodeIds ↔ x ∈ acc.pathNodeIds ∨ ∃ msg ∈ history, ∃ r,
        msg.retrieval = some r ∧ ∃ mo, buildOverlay r nodes = .ok mo ∧
          x ∈ mo.pathNodeIds) ∧
    (x ∈ ov.pathEdgeKeys ↔ x ∈ acc.pathEdgeKeys ∨ ∃ msg ∈ history, ∃ r,
        msg.retrieval = some r ∧ ∃ mo, buildOverlay r nodes = .ok mo ∧
          x ∈ mo.pathEdgeKeys) := by
  induction history generalizing acc with
  | nil =>
    have hov := Except.ok.inj h
    subst hov
    simp
  | cons msg rest ih =>
    cases hr : msg.retrieval with
    | none =>
      simp only [mergeHistoryAux, hr] at h
      have hh := ih h
      refine ⟨?_, ?_, ?_⟩
      · rw [List.exists_mem_cons_iff]
        simp only [hr, reduceCtorEq, false_and, exists_false, false_or]
        exact hh.1
      · rw [List.exists_mem_cons_iff]
        simp only [hr, reduceCtorEq, false_and, exists_false, false_or]
        exact hh.2.1
      · rw [List.exists_mem_cons_iff]
        simp only [hr, reduceCtorEq, false_and, exists_false, false_or]
        exact hh.2.2
    | some r =>
      cases hb : buildOverlay r nodes with
      | error e =>
        simp only [mergeHistoryAux, hr, hb] at h
        exact Except.noConfusion h
      | ok mo =>
        simp only [mergeHistoryAux, hr, hb] at h
        have hh := ih h
        have hP1 : (∃ r', msg.retrieval = some r' ∧ ∃ mo',
            buildOverlay r' nodes = .ok mo' ∧ x ∈ mo'.hitNodeIds) ↔
            x ∈ mo.hitNodeIds := by
          constructor
          · rintro ⟨r', hr', mo', hb', hx⟩
            rw [hr] at hr'
            cases Option.some.inj hr'
            rw [hb] at hb'
            cases Except.ok.inj hb'
            exact hx
          · intro hx
            exact ⟨r, hr, mo, hb, hx⟩
        have hP2 : (∃ r', msg.retrieval = some r' ∧ ∃ mo',
            buildOverlay r' nodes = .ok mo' ∧ x ∈ mo'.pathNodeIds) ↔
            x ∈ mo.pathNodeIds := by
          constructor
          · rintro ⟨r', hr', mo', hb', hx⟩
            rw [hr] at hr'
            cases Option.some.inj hr'
            rw [hb] at hb'
            cases Except.ok.inj hb'
            exact hx
          · intro hx
            exact ⟨r, hr, mo, hb, hx⟩
        have hP3 : (∃ r', msg.retrieval = some r' ∧ ∃ mo',
            buildOverlay r' nodes = .ok mo' ∧ x ∈ mo'.pathEdgeKeys) ↔
            x ∈ mo.pathEdgeKeys := by
          constructor
          · rintro ⟨r', hr', mo', hb', hx⟩
            rw [hr] at hr'
            cases Option.some.inj hr'
            rw [hb] at hb'
            cases Except.ok.inj hb'
            exact hx
          · intro hx
            exact ⟨r, hr, mo, hb, hx⟩
        refine ⟨?_, ?_, ?_⟩
        · rw [List.exists_mem_cons_iff, hP1, hh.1, mem_setAddAll, or_assoc]
        · rw [List.exists_mem_cons_iff, hP2, hh.2.1, mem_setAddAll, or_assoc]
        · rw [List.exists_mem_cons_iff, hP3, hh.2.2, mem_setAddAll, or_assoc]

/-- C4: the merged overlay is always exactly the element-wise union, over all
messages carrying a retrieval payload, of the per-message `buildOverlay`
results; the empty history yields the empty overlay, and the merged overlay
holds no element not derivable from some message in history (the reverse
implications of the three equivalences). -/
theorem c4_merge_is_union :
    (∀ nodes : List NodeRec, mergeHistory [] nodes = .ok emptyOverlay) ∧
    (∀ (history : List ChatMessage) (nodes : List NodeRec) (ov : Overlay),
      mergeHistory history nodes = .ok ov →
      ∀ x : String,
        (x ∈ ov.hitNodeIds ↔ ∃ msg ∈ history, ∃ r, msg.retrieval = some r ∧
          ∃ mo, buildOverlay r nodes = .ok mo ∧ x ∈ mo.hitNodeIds) ∧
        (x ∈ ov.pathNodeIds ↔ ∃ msg ∈ history, ∃ r, msg.retrieval = some r ∧
          ∃ mo, buildOverlay r nodes = .ok mo ∧ x ∈ mo.pathNodeIds) ∧
        (x ∈ ov.pathEdgeKeys ↔ ∃ msg ∈ history, ∃ r, msg.retrieval = some r ∧
          ∃ mo, buildOverlay r nodes = .ok mo ∧ x ∈ mo.pathEdgeKeys)) := by
  constructor
  · intro nodes
    rfl
  · intro history nodes ov h x
    have hh := mergeHistoryAux_ok_mem h x
    simpa [emptyOverlay] using hh

/-- C4 — witness at a one-message history carrying the spec §8 scenario
payload. -/
theorem c4_witness :
    "n1" ∈ (Overlay.mk ["n1"] ["n1", "n2"] ["EGG||BOIL", "BOIL||EGG"]).hitNodeIds ↔
      ∃ msg ∈ [ChatMessage.mk (some sampleRes)], ∃ r, msg.retrieval = some r ∧
        ∃ mo, buildOverlay r sampleNodes = .ok mo ∧ "n1" ∈ mo.hitNodeIds :=
  (c4_merge_is_union.2 [⟨some sampleRes⟩] sampleNodes
    ⟨["n1"], ["n1", "n2"], ["EGG||BOIL", "BOIL||EGG"]⟩ rfl "n1").1

/-! ## The level-band force (src/kgx-ui/src/components/GraphCanvas.tsx)

`minLevel`/`maxLevel` (lines 95-104) and the `levelY` force effect
(lines 106-117).  JS numbers are modelled as exact rationals. -/

/-- The `[minLevel, maxLevel]` memo: `[0, 0]` for an empty node list, else
the running min/max of the node levels. -/
def minMaxLevel (nodes : List NodeRec) : Int × Int :=
  match nodes with
  | [] => (0, 0)
  | n :: ns =>
      ns.foldl (fun mm n' => (min mm.1 n'.level, max mm.2 n'.level))
        (n.level, n.level)

/-- The band-force target y for a node of level `lvl`, with viewport height
`h`: `levels = maxLevel - minLevel + 1 || 1`, `padding = 48`,
`innerHeight = Math.max(1, h - padding * 2)`, `spacing = innerHeight / levels`,
`yFor = (h - padding) - (lvl - minLevel) * spacing`. -/
def yFor (nodes : List NodeRec) (h : ℚ) (lvl : Int) : ℚ :=
  let mm := minMaxLevel nodes
  let levelsRaw : Int := mm.2 - mm.1 + 1
  let levels : Int := if levelsRaw = 0 then 1 else levelsRaw
  let padding : ℚ := 48
  let innerHeight : ℚ := max 1 (h - padding * 2)
  let spacing : ℚ := innerHeight / (levels : ℚ)
  (h - padding) - ((lvl : ℚ) - (mm.1 : ℚ)) * spacing

/-- Sorted insertion of an integer (spec-side helper). -/
def insertSorted (x : Int) : List Int → List Int
  | [] => [x]
  | y :: ys => if x ≤ y then x :: y :: ys else y :: insertSorted x ys

/-- Insertion sort on integers (spec-side helper). -/
def sortInts : List Int → List Int
  | [] => []
  | x :: xs => insertSorted x (sortInts xs)

/-- Modelled from the spec: "the distinct set of levels present in the
current graph", sorted ascending. -/
def distinctLevels (nodes : List NodeRec) : List Int :=
  sortInts (nodes.map (fun n => n.level)).dedup

/-- The rank of a level in the sorted distinct-level list (spec-side
helper). -/
def rankOf : List Int → Int → Nat
  | [], _ => 0
  | x :: xs, l => if x = l then 0 else 1 + rankOf xs l

/-- Modelled from the spec (§4.5): "take the distinct set of levels present
in the current graph, sort ascending, and allocate each level an equal
vertical slice of (viewport height − 2×padding), ordered so the lowest level
is nearest the bottom", with the lowest band's target at `h − padding` —
the placement that reproduces the spec's own §8 value y = 352 for level 0 at
h = 400, padding 48. -/
def specYFor (nodes : List NodeRec) (h : ℚ) (lvl : Int) : ℚ :=
  let levels := distinctLevels nodes
  let padding : ℚ := 48
  let innerHeight : ℚ := h - padding * 2
  let spacing : ℚ := innerHeight / (max 1 levels.length : ℚ)
  (h - padding) - (rankOf levels lvl : ℚ) * spacing

/-- Auxiliary: the min/max fold keeps the first component at or below the
second. -/
theorem minMax_foldl_le (l : List NodeRec) :
    ∀ a b : Int, a ≤ b →
      (l.foldl (fun mm n' => (min mm.1 n'.level, max mm.2 n'.level)) (a, b)).1 ≤
      (l.foldl (fun mm n' => (min mm.1 n'.level, max mm.2 n'.level)) (a, b)).2 := by
  induction l with
  | nil => intro a b hab; exact hab
  | cons m l ih =>
    intro a b hab
    exact ih _ _
      (le_trans (min_le_left a m.level) (le_trans hab (le_max_left b m.level)))

theorem minMaxLevel_le (nodes : List NodeRec) :
    (minMaxLevel nodes).1 ≤ (minMaxLevel nodes).2 := by
  cases nodes with
  | nil => exact le_refl 0
  | cons n ns => exact minMax_foldl_le ns n.level n.level (le_refl n.level)

/-- C2 — counterexample.  The source allocates one band per level in the
CONTIGUOUS range `minLevel..maxLevel` (`maxLevel - minLevel + 1` slices), not
one per distinct level present: with present levels {0, 2} and h = 400 the
code divides the padded height into 3 slices and puts level 2 at 448/3,
whereas the spec's distinct-set allocation (which reproduces the claim's own
instance: level 0 at y = 352 under both formulas) puts it at 200. -/
theorem c2_counterexample :
    yFor [⟨"a", "", "", 0⟩, ⟨"b", "", "", 2⟩] 400 2 ≠
      specYFor [⟨"a", "", "", 0⟩, ⟨"b", "", "", 2⟩] 400 2 ∧
    yFor [⟨"a", "", "", 0⟩, ⟨"b", "", "", 2⟩] 400 2 = 448 / 3 ∧
    specYFor [⟨"a", "", "", 0⟩, ⟨"b", "", "", 2⟩] 400 2 = 200 ∧
    yFor sampleNodes 400 0 = 352 ∧
    specYFor sampleNodes 400 0 = 352 := by
  have hmm : minMaxLevel [⟨"a", "", "", 0⟩, ⟨"b", "", "", 2⟩] = (0, 2) := rfl
  have hdl : distinctLevels [⟨"a", "", "", 0⟩, ⟨"b", "", "", 2⟩] = [0, 2] := rfl
  have hmm2 : minMaxLevel sampleNodes = (0, 1) := rfl
  have hdl2 : distinctLevels sampleNodes = [0, 1] := rfl
  have h1 : yFor [⟨"a", "", "", 0⟩, ⟨"b", "", "", 2⟩] 400 2 = 448 / 3 := by
    simp only [yFor, hmm]
    norm_num [max_def]
  have h2 : specYFor [⟨"a", "", "", 0⟩, ⟨"b", "", "", 2⟩] 400 2 = 200 := by
    simp only [specYFor, hdl]
    norm_num [rankOf, max_def]
  have h3 : yFor sampleNodes 400 0 = 352 := by
    simp only [yFor, hmm2]
    norm_num [max_def]
  have h4 : specYFor sampleNodes 400 0 = 352 := by
    simp only [specYFor, hdl2]
    norm_num [rankOf, max_def]
  refine ⟨?_, h1, h2, h3, h4⟩
  rw [h1, h2]
  norm_num

/-- C2 (amended): the band target divides `max(1, h − 2·padding)` into
`maxLevel − minLevel + 1` equal slices over the contiguous level range, with
strictly lower levels strictly nearer the bottom edge; it agrees with the
distinct-set allocation when the present levels are contiguous — in
particular with levels {0, 1}, h = 400, padding 48: level 0's band target is
y = 352 and level 0 is nearer the bottom edge (y = 400) than level 1. -/
theorem c2_band_force :
    (∀ (nodes : List NodeRec) (h : ℚ) (l1 l2 : Int), l1 < l2 →
      yFor nodes h l2 < yFor nodes h l1) ∧
    yFor sampleNodes 400 0 = 352 ∧
    400 - yFor sampleNodes 400 0 < 400 - yFor sampleNodes 400 1 ∧
    yFor sampleNodes 400 1 = specYFor sampleNodes 400 1 := by
  have hmm2 : minMaxLevel sampleNodes = (0, 1) := rfl
  have hdl2 : distinctLevels sampleNodes = [0, 1] := rfl
  have h3 : yFor sampleNodes 400 0 = 352 := by
    simp only [yFor, hmm2]
    norm_num [max_def]
  have h5 : yFor sampleNodes 400 1 = 200 := by
    simp only [yFor, hmm2]
    norm_num [max_def]
  have h6 : specYFor sampleNodes 400 1 = 200 := by
    simp only [specYFor, hdl2]
    norm_num [rankOf, max_def]
  refine ⟨?_, h3, ?_, ?_⟩
  swap
  · rw [h3, h5]
    norm_num
  swap
  · rw [h5, h6]
  intro nodes h l1 l2 hl
  have hmm := minMaxLevel_le nodes
  simp only [yFor]
  set mm := minMaxLevel nodes with hmmdef
  have hraw : ¬(mm.2 - mm.1 + 1 = 0) := by omega
  rw [if_neg hraw]
  have hlevpos : (0 : ℚ) < ((mm.2 - mm.1 + 1 : Int) : ℚ) := by
    have : (0 : Int) < mm.2 - mm.1 + 1 := by omega
    exact_mod_cast this
  have hinner : (0 : ℚ) < max 1 (h - 48 * 2) :=
    lt_of_lt_of_le zero_lt_one (le_max_left 1 (h - 48 * 2))
  have hsp : (0 : ℚ) < max 1 (h - 48 * 2) / ((mm.2 - mm.1 + 1 : Int) : ℚ) :=
    div_pos hinner hlevpos
  apply sub_lt_sub_left
  apply mul_lt_mul_of_pos_right _ hsp
  have hcast : (l1 : ℚ) < (l2 : ℚ) := by exact_mod_cast hl
  exact sub_lt_sub_right hcast _

/-- C2 — witness for the monotonicity part of the amended theorem. -/
theorem c2_witness : yFor sampleNodes 400 1 < yFor sampleNodes 400 0 :=
  c2_band_force.1 sampleNodes 400 0 1 (by decide)

/-! ## The zoom-signature / reset-zoom effects (GraphCanvas.tsx lines 68-93) -/

/-- The mutable `zoomSigRef` (initially the empty string). -/
structure CanvasZoomState where
  zoomSig : String
deriving DecidableEq, Repr

/-- The events the two effects react to: an overlay change, or a bump of
`resetZoomTick` (the user's reset-view action). -/
inductive CanvasEvent where
  | overlayChange (ov : Overlay)
  | resetZoom
deriving DecidableEq, Repr

/-- `new Set([...hitNodeIds, ...pathNodeIds])`. -/
def focusSetOf (ov : Overlay) : List String :=
  setAddAll (setAddAll [] ov.hitNodeIds) ov.pathNodeIds

/-- Sorted insertion of a string by the lexicographic order (the default JS
`Array.sort` comparator on strings). -/
def strInsert (x : String) : List String → List String
  | [] => [x]
  | y :: ys => if x < y then x :: y :: ys else y :: strInsert x ys

/-- `Array.from(focusSet).sort()`. -/
def sortStrings : List String → List String
  | [] => []
  | x :: xs => strInsert x (sortStrings xs)

/-- `Array.from(focusSet).sort().join('|')`. -/
def signatureOf (focus : List String) : String :=
  String.intercalate "|" (sortStrings focus)

/-- One step of the zoom logic: the overlay effect (empty focus → no action;
unchanged signature → no action; else store the signature and schedule a
fit) and the reset effect (always fit, store the sentinel `'reset'`).
Returns the new state and whether a `zoomToFit` was scheduled. -/
def stepCanvas (st : CanvasZoomState) (ev : CanvasEvent) :
    CanvasZoomState × Bool :=
  match ev with
  | .overlayChange ov =>
      let focusSet := focusSetOf ov
      if focusSet = [] then (st, false)
      else
        let signature := signatureOf focusSet
        if signature = st.zoomSig then (st, false)
        else (⟨signature⟩, true)
  | .resetZoom => (⟨"reset"⟩, true)

/-- C8 — counterexample.  The sentinel `'reset'` is not distinguished from
real focus signatures: an overlay focused on a node whose id is literally
`"reset"` has signature `"reset"`.  That overlay triggers a fit from the
initial state (so its signature was applied before the reset), but after a
reset-view the SAME overlay change — with a non-empty focus set — is
suppressed, violating the claimed guarantee. -/
theorem c8_counterexample :
    (stepCanvas ⟨""⟩ (.overlayChange ⟨["reset"], [], []⟩)).2 = true ∧
    focusSetOf ⟨["reset"], [], []⟩ ≠ [] ∧
    (stepCanvas (stepCanvas (stepCanvas ⟨""⟩
        (.overlayChange ⟨["reset"], [], []⟩)).1 .resetZoom).1
        (.overlayChange ⟨["reset"], [], []⟩)).2 = false := by
  refine ⟨by decide, by decide, by decide⟩

/-- C8 (amended): a reset-view always fits immediately and stores the
sentinel string `"reset"`, so the next overlay change with a non-empty focus
set schedules a fit UNLESS its signature is itself the literal string
`"reset"`; and an identical overlay presented twice in succession triggers at
most one fit (the second presentation never schedules one). -/
theorem c8_reset_sentinel :
    (∀ st : CanvasZoomState, (stepCanvas st .resetZoom).2 = true) ∧
    (∀ (st : CanvasZoomState) (ov : Overlay),
      focusSetOf ov ≠ [] → signatureOf (focusSetOf ov) ≠ "reset" →
      (stepCanvas (stepCanvas st .resetZoom).1 (.overlayChange ov)).2 = true) ∧
    (∀ (st : CanvasZoomState) (ov : Overlay),
      (stepCanvas (stepCanvas st (.overlayChange ov)).1 (.overlayChange ov)).2
        = false) := by
  refine ⟨fun st => rfl, ?_, ?_⟩
  · intro st ov h1 h2
    simp only [stepCanvas]
    rw [if_neg h1, if_neg h2]
  · intro st ov
    by_cases h1 : focusSetOf ov = []
    · simp [stepCanvas, h1]
    · by_cases h2 : signatureOf (focusSetOf ov) = st.zoomSig
      · simp [stepCanvas, h1, h2]
      · simp [stepCanvas, h1, h2]

/-- C8 — witness: after a reset, an overlay focused on node `"n1"` schedules
a fit. -/
theorem c8_witness :
    (stepCanvas (stepCanvas ⟨""⟩ .resetZoom).1
      (.overlayChange ⟨["n1"], [], []⟩)).2 = true :=
  c8_reset_sentinel.2.1 ⟨""⟩ ⟨["n1"], [], []⟩ (by decide) (by decide)

end KGX
